import Mathlib

/-!
Shallow embedding of the capture/persistence core of local-text-history.

Sources embedded here:
* `src/internal/db/db.go` — the SQLite-backed store (`saveSnapshotInTx`,
  `SaveSnapshot`, `SaveSnapshotBatch`, `SaveRename`, `GetSnapshot`,
  `GetRecentSnapshots`).
* `src/internal/watcher/watcher.go` — `findWatchSet`, `takeSnapshot`,
  `tryMatchRename`.
* `src/internal/watcher/filter.go` — `isBinary`.

Modelling conventions:
* Go strings and byte slices are byte lists (`List Nat`); `filepath.Separator`
  on the target platform is the byte 47.
* The SQLite tables are lists of records in rowid (insertion) order; a SQL
  `DELETE` is a `filter`, preserving that order.
* `newUUIDv7` is modelled by a store-wide counter: each generated identifier
  is the current counter value.  UUIDv7 identifiers are time-ordered, so the
  numeric order of the counter models the lexicographic order of the
  generated identifier text.
* The latest-hash subquery and the retention keep-subquery order by
  `timestamp DESC` alone, with no id tiebreak.  They are served by a
  forward scan of the `(file_id, timestamp DESC)` index, which meets rows
  of equal timestamp in rowid (insertion) order, earliest first — so among
  rows sharing the newest timestamp the earliest-inserted one comes first
  (verified against the engine on this exact schema).  With counter
  identifiers this is (timestamp descending, id ascending).  Only
  `GetRecentSnapshots` orders by an explicit `timestamp DESC, id DESC`.
* `time.Now().Unix()` is an explicit parameter `now`; SQL engine failures
  (begin/commit) are explicit oracle parameters where a claim depends on
  them.
-/

namespace LocalTextHistory

/-- Byte strings: Go strings and byte slices as lists of bytes. -/
abbrev Str := List Nat

/-! ### SHA-256 (Go `crypto/sha256`, used by `sha256sum` in db.go) -/

/-- Truncate to a 32-bit word. -/
def w32 (n : Nat) : Nat := n % 4294967296

/-- Rotate a 32-bit word right by `n` bits. -/
def rotr32 (n x : Nat) : Nat := w32 ((x >>> n) ||| (x <<< (32 - n)))

/-- SHA-256 choice function. -/
def shaCh (x y z : Nat) : Nat := (x &&& y) ^^^ ((x ^^^ 4294967295) &&& z)

/-- SHA-256 majority function. -/
def shaMaj (x y z : Nat) : Nat := (x &&& y) ^^^ (x &&& z) ^^^ (y &&& z)

/-- SHA-256 big sigma 0. -/
def bigSigma0 (x : Nat) : Nat := rotr32 2 x ^^^ rotr32 13 x ^^^ rotr32 22 x

/-- SHA-256 big sigma 1. -/
def bigSigma1 (x : Nat) : Nat := rotr32 6 x ^^^ rotr32 11 x ^^^ rotr32 25 x

/-- SHA-256 small sigma 0. -/
def smallSigma0 (x : Nat) : Nat := rotr32 7 x ^^^ rotr32 18 x ^^^ (x >>> 3)

/-- SHA-256 small sigma 1. -/
def smallSigma1 (x : Nat) : Nat := rotr32 17 x ^^^ rotr32 19 x ^^^ (x >>> 10)

/-- The 64 SHA-256 round constants. -/
def shaK : List Nat :=
  [1116352408, 1899447441, 3049323471, 3921009573, 961987163, 1508970993,
   2453635748, 2870763221, 3624381080, 310598401, 607225278, 1426881987,
   1925078388, 2162078206, 2614888103, 3248222580, 3835390401, 4022224774,
   264347078, 604807628, 770255983, 1249150122, 1555081692, 1996064986,
   2554220882, 2821834349, 2952996808, 3210313671, 3336571891, 3584528711,
   113926993, 338241895, 666307205, 773529912, 1294757372, 1396182291,
   1695183700, 1986661051, 2177026350, 2456956037, 2730485921, 2820302411,
   3259730800, 3345764771, 3516065817, 3600352804, 4094571909, 275423344,
   430227734, 506948616, 659060556, 883997877, 958139571, 1322822218,
   1537002063, 1747873779, 1955562222, 2024104815, 2227730452, 2361852424,
   2428436474, 2756734187, 3204031479, 3329325298]

/-- Working state of the SHA-256 compression function: eight 32-bit words. -/
structure Sha8 where
  a : Nat
  b : Nat
  c : Nat
  d : Nat
  e : Nat
  f : Nat
  g : Nat
  h : Nat
deriving DecidableEq

/-- The SHA-256 initial hash value. -/
def sha8Init : Sha8 :=
  ⟨1779033703, 3144134277, 1013904242, 2773480762,
   1359893119, 2600822924, 528734635, 1541459225⟩

/-- Big-endian byte serialisation of `n` into `k` bytes. -/
def beBytes (k n : Nat) : Str :=
  (List.range k).map (fun i => (n >>> (8 * (k - 1 - i))) % 256)

/-- SHA-256 message padding: append 0x80, zeros, and the 64-bit bit length. -/
def shaPad (msg : Str) : Str :=
  let z := (120 - ((msg.length + 1) % 64)) % 64
  msg ++ [128] ++ List.replicate z 0 ++ beBytes 8 (8 * msg.length)

/-- Group a byte list into big-endian 32-bit words. -/
def toWords : Str → List Nat
  | a :: b :: c :: d :: rest => (((a * 256 + b) * 256 + c) * 256 + d) :: toWords rest
  | _ => []

/-- Extend 16 message words to the 64-word SHA-256 message schedule. -/
def schedule (ws : List Nat) : List Nat :=
  Nat.fold (fun i acc =>
    acc ++ [w32 (smallSigma1 (acc.getD (i + 14) 0) + acc.getD (i + 9) 0 +
                 smallSigma0 (acc.getD (i + 1) 0) + acc.getD i 0)]) 48 ws

/-- One SHA-256 round. -/
def shaRound (k wt : Nat) (s : Sha8) : Sha8 :=
  let t1 := w32 (s.h + bigSigma1 s.e + shaCh s.e s.f s.g + k + wt)
  let t2 := w32 (bigSigma0 s.a + shaMaj s.a s.b s.c)
  ⟨w32 (t1 + t2), s.a, s.b, s.c, w32 (s.d + t1), s.e, s.f, s.g⟩

/-- Run the 64 SHA-256 rounds. -/
def shaRounds : List Nat → List Nat → Sha8 → Sha8
  | k :: ks, wt :: ws, s => shaRounds ks ws (shaRound k wt s)
  | _, _, s => s

/-- Compress one 16-word block into the running hash state. -/
def compressBlock (hs : Sha8) (block : List Nat) : Sha8 :=
  let s := shaRounds shaK (schedule block) hs
  ⟨w32 (hs.a + s.a), w32 (hs.b + s.b), w32 (hs.c + s.c), w32 (hs.d + s.d),
   w32 (hs.e + s.e), w32 (hs.f + s.f), w32 (hs.g + s.g), w32 (hs.h + s.h)⟩

/-- Split a word list into 16-word blocks (padded input always splits
evenly; a short trailing group cannot arise after `shaPad`). -/
def blocksOf : List Nat → List (List Nat)
  | w0 :: w1 :: w2 :: w3 :: w4 :: w5 :: w6 :: w7 ::
    w8 :: w9 :: w10 :: w11 :: w12 :: w13 :: w14 :: w15 :: rest =>
      [w0, w1, w2, w3, w4, w5, w6, w7, w8, w9, w10, w11, w12, w13, w14, w15] :: blocksOf rest
  | [] => []
  | l => [l]

/-- Lowercase hex digit byte for a nibble. -/
def hexDigit (n : Nat) : Nat := if n < 10 then 48 + n else 87 + n

/-- Two lowercase hex digit bytes of one byte. -/
def byteToHex (b : Nat) : Str := [hexDigit (b / 16), hexDigit (b % 16)]

/-- `sha256sum` from db.go: the lowercase hex SHA-256 digest of the input
bytes, as a byte string. -/
def sha256hex (msg : Str) : Str :=
  let fin := (blocksOf (toWords (shaPad msg))).foldl compressBlock sha8Init
  (([fin.a, fin.b, fin.c, fin.d, fin.e, fin.f, fin.g, fin.h].flatMap (beBytes 4)).flatMap byteToHex)

/-! ### Store data model (db.go)

Rows of the `files`, `snapshots` and `renames` tables.  Lists are in rowid
(insertion) order; identifiers come from the store-wide counter `nextId`
modelling `newUUIDv7`. -/

/-- A row of the `files` table. -/
structure FileRec where
  id : Nat
  path : Str
  created : Int
  updated : Int
deriving DecidableEq

/-- A row of the `snapshots` table; `content` holds the compressed blob. -/
structure SnapRec where
  id : Nat
  fileId : Nat
  content : Str
  size : Int
  hash : Str
  timestamp : Int
deriving DecidableEq

/-- A row of the `renames` table. -/
structure RenameRec where
  id : Nat
  oldFileId : Nat
  newFileId : Nat
  oldPath : Str
  newPath : Str
  timestamp : Int
deriving DecidableEq

/-- A `HistoryEntry` as returned by `GetRecentSnapshots`. -/
structure HistoryEntry where
  snapshotId : Nat
  fileId : Nat
  filePath : Str
  size : Int
  hash : Str
  timestamp : Int
deriving DecidableEq

/-- The persistent state behind one database file. -/
structure Store where
  files : List FileRec
  snapshots : List SnapRec
  renames : List RenameRec
  nextId : Nat
deriving DecidableEq

/-- The store of a freshly created database. -/
def Store.empty : Store := ⟨[], [], [], 0⟩

/-- Well-formedness maintained by the store: identifiers are pairwise
distinct and below the allocation counter, and snapshot file references
are below the counter as well (foreign-key integrity gives them as ids of
existing files). -/
def Store.WF (st : Store) : Prop :=
  (st.snapshots.map SnapRec.id).Nodup ∧
  (∀ s ∈ st.snapshots, s.id < st.nextId ∧ s.fileId < st.nextId) ∧
  (∀ f ∈ st.files, f.id < st.nextId)

instance (st : Store) : Decidable st.WF := by
  unfold Store.WF
  infer_instance

/-- The `DB` wrapper state from db.go: the configured per-file retention
cap and the zstd encoder/decoder.  The zstd codec is external library code
(`github.com/klauspost/compress/zstd`); it is carried as a pair of opaque
byte-string functions. -/
structure DBCfg where
  maxSnapshots : Nat
  enc : Str → Str
  dec : Str → Str

/-- A database configuration whose codec is the identity; used to
instantiate theorems on concrete inputs. -/
def idCfg (n : Nat) : DBCfg := ⟨n, fun b => b, fun b => b⟩

/-! ### Store operations (db.go) -/

/-- One step of the latest-snapshot scan: keep the candidate with the
strictly larger timestamp.  An earlier row wins a timestamp tie: the
forward index scan meets equal-timestamp rows in insertion order and
`LIMIT 1` returns the first of them. -/
def latestStep (fid : Nat) (acc : Option SnapRec) (s : SnapRec) : Option SnapRec :=
  if s.fileId = fid then
    match acc with
    | none => some s
    | some b => if b.timestamp < s.timestamp then some s else some b
  else acc

/-- The subquery `SELECT hash FROM snapshots WHERE file_id = ? ORDER BY
timestamp DESC LIMIT 1`.  The query has no id tiebreak: among rows
sharing the newest timestamp the earliest-inserted one is returned. -/
def latestSnapFor (snaps : List SnapRec) (fid : Nat) : Option SnapRec :=
  snaps.foldl (latestStep fid) none

/-- The hash of the latest snapshot of a file, if any. -/
def latestHash (snaps : List SnapRec) (fid : Nat) : Option Str :=
  (latestSnapFor snaps fid).map SnapRec.hash

/-- Comparison backing `ORDER BY timestamp DESC, id DESC` (and the
reverse scan of the `(file_id, timestamp DESC)` index): `a` comes no
later than `b` in the output. -/
def snapGE (a b : SnapRec) : Bool :=
  decide (b.timestamp < a.timestamp ∨ (a.timestamp = b.timestamp ∧ b.id ≤ a.id))

/-- Insert a snapshot row into a list sorted by `snapGE`. -/
def insertSnapDesc (s : SnapRec) : List SnapRec → List SnapRec
  | [] => [s]
  | t :: ts => if snapGE s t then s :: t :: ts else t :: insertSnapDesc s ts

/-- Sort snapshot rows by `ORDER BY timestamp DESC, id DESC`. -/
def sortSnapsDesc (l : List SnapRec) : List SnapRec :=
  l.foldr insertSnapDesc []

/-- Comparison backing the retention keep-subquery's
`ORDER BY timestamp DESC LIMIT n`, which has no id tiebreak: timestamp
descending, and among equal timestamps insertion (rowid) order — modelled
by ascending id, since the counter identifiers grow in insertion order. -/
def snapPruneGE (a b : SnapRec) : Bool :=
  decide (b.timestamp < a.timestamp ∨ (a.timestamp = b.timestamp ∧ a.id ≤ b.id))

/-- Insert a snapshot row into a list sorted by `snapPruneGE`. -/
def insertSnapPrune (s : SnapRec) : List SnapRec → List SnapRec
  | [] => [s]
  | t :: ts => if snapPruneGE s t then s :: t :: ts else t :: insertSnapPrune s ts

/-- Sort snapshot rows as the retention keep-subquery scans them:
timestamp descending, earliest-inserted first among equal timestamps. -/
def sortSnapsPrune (l : List SnapRec) : List SnapRec :=
  l.foldr insertSnapPrune []

/-- The retention `DELETE`: remove all snapshots of `fid` that are not
among the first `n` rows of the keep-subquery
(`ORDER BY timestamp DESC LIMIT n`).  Because ties keep the
earliest-inserted rows, a row inserted at a timestamp already present
for the file can itself be deleted. -/
def pruneFile (n : Nat) (snaps : List SnapRec) (fid : Nat) : List SnapRec :=
  let keepIds := ((sortSnapsPrune (snaps.filter (fun s => decide (s.fileId = fid)))).take n).map SnapRec.id
  snaps.filter (fun s => decide (¬ s.fileId = fid ∨ s.id ∈ keepIds))

/-- `saveSnapshotInTx` from db.go: duplicate check against the latest
snapshot hash, file row creation or update, snapshot insertion, and
retention pruning.  Returns the `saved` flag and the updated store.  (The
Go error results arise only from SQL engine failures, which cannot occur
in the relational model.) -/
def saveSnapshotInTx (cfg : DBCfg) (now : Int) (st : Store) (filePath : Str) (content : Str) :
    Bool × Store :=
  let hash := sha256hex content
  match st.files.find? (fun f => decide (f.path = filePath)) with
  | some f =>
    if latestHash st.snapshots f.id = some hash then
      (false, st)
    else
      let files2 := st.files.map (fun g => if g.id = f.id then { g with updated := now } else g)
      let snap : SnapRec := ⟨st.nextId, f.id, cfg.enc content, (content.length : Int), hash, now⟩
      let snaps2 := st.snapshots ++ [snap]
      let snaps3 := if 0 < cfg.maxSnapshots then pruneFile cfg.maxSnapshots snaps2 f.id else snaps2
      (true, ⟨files2, snaps3, st.renames, st.nextId + 1⟩)
  | none =>
    let newFile : FileRec := ⟨st.nextId, filePath, now, now⟩
    let snap : SnapRec := ⟨st.nextId + 1, newFile.id, cfg.enc content, (content.length : Int), hash, now⟩
    let snaps2 := st.snapshots ++ [snap]
    let snaps3 := if 0 < cfg.maxSnapshots then pruneFile cfg.maxSnapshots snaps2 newFile.id else snaps2
    (true, ⟨st.files ++ [newFile], snaps3, st.renames, st.nextId + 2⟩)

/-- `SaveSnapshot` from db.go: one save in its own transaction.  Engine
begin/commit failures leave the store unchanged and are outside the
relational model. -/
def SaveSnapshot (cfg : DBCfg) (now : Int) (st : Store) (filePath : Str) (content : Str) :
    Bool × Store :=
  saveSnapshotInTx cfg now st filePath content

/-- Engine failures surfaced by `SaveSnapshotBatch`. -/
inductive DBErr where
  | beginTx
  | commitTx
deriving DecidableEq

/-- The in-transaction loop of `SaveSnapshotBatch`: run `saveSnapshotInTx`
for every item in order, accumulating the per-item `saved` flags. -/
def runBatchInTx (cfg : DBCfg) (now : Int) (st : Store) (items : List (Str × Str)) :
    List Bool × Store :=
  items.foldl (fun acc it =>
    let r := saveSnapshotInTx cfg now acc.2 it.1 it.2
    (acc.1 ++ [r.1], r.2)) ([], st)

/-- `SaveSnapshotBatch` from db.go: one transaction over all items.
`beginOk` and `commitOk` are the outcomes of `Begin` and `Commit` (the
engine-failure oracle).  On begin failure every item reports the begin
error; on commit failure every item that had `saved=true` with no error
is flipped to `saved=false` with the commit error, and the transaction
rolls back. -/
def SaveSnapshotBatch (cfg : DBCfg) (now : Int) (st : Store) (items : List (Str × Str))
    (beginOk commitOk : Bool) : List (Bool × Option DBErr) × Store :=
  if beginOk = false then
    (items.map (fun _ => (false, some DBErr.beginTx)), st)
  else
    let r := runBatchInTx cfg now st items
    if commitOk then
      (r.1.map (fun s => (s, none)), r.2)
    else
      (r.1.map (fun s => if s then (false, some DBErr.commitTx) else (s, none)), st)

/-- `GetSnapshot` from db.go: look up a snapshot row by id and decompress
its content. -/
def GetSnapshot (cfg : DBCfg) (st : Store) (sid : Nat) : Option SnapRec :=
  (st.snapshots.find? (fun s => decide (s.id = sid))).map
    (fun s => { s with content := cfg.dec s.content })

/-- The row constructed by the join in `GetRecentSnapshots`. -/
def entryOf (s : SnapRec) (f : FileRec) : HistoryEntry :=
  ⟨s.id, s.fileId, f.path, s.size, s.hash, s.timestamp⟩

/-- `GetRecentSnapshots` from db.go: snapshots joined with their file
path, `ORDER BY s.timestamp DESC, s.id DESC LIMIT ?`.  Only the
`snapshots` table is read; `renames` never contributes rows. -/
def GetRecentSnapshots (st : Store) (limit : Nat) : List HistoryEntry :=
  (((sortSnapsDesc st.snapshots).filterMap (fun s =>
    (st.files.find? (fun f => decide (f.id = s.fileId))).map (entryOf s))).take limit)

/-- The error produced by `SaveRename` when `old_path` has no `files`
row: `Scan` yields `sql.ErrNoRows`, which `SaveRename` wraps and returns
as a non-nil error. -/
inductive RenameErr where
  | oldFileNotFound
deriving DecidableEq

/-- `SaveRename` from db.go: look up the old file by path (erroring when
absent), look up or create the new file, and insert a rename row.
Returns the new file id with the updated store. -/
def SaveRename (now : Int) (st : Store) (oldPath newPath : Str) :
    Except RenameErr (Nat × Store) :=
  match st.files.find? (fun f => decide (f.path = oldPath)) with
  | none => Except.error RenameErr.oldFileNotFound
  | some oldF =>
    let next :=
      match st.files.find? (fun f => decide (f.path = newPath)) with
      | some nf => (nf.id, st.files, st.nextId)
      | none => (st.nextId, st.files ++ [(⟨st.nextId, newPath, now, now⟩ : FileRec)], st.nextId + 1)
    let r : RenameRec := ⟨next.2.2, oldF.id, next.1, oldPath, newPath, now⟩
    Except.ok (next.1, ⟨next.2.1, st.snapshots, st.renames ++ [r], next.2.2 + 1⟩)

/-! ### Watcher (watcher.go, filter.go) -/

/-- `filepath.Separator` on the target platform, as a byte. -/
def sepByte : Nat := 47

/-- The fields of `config.WatchSet` consumed by `watcher.New`. -/
structure WatchSetCfg where
  name : Str
  dirs : List Str
  extensions : List Str
  excludePatterns : List Str
  debounceSec : Nat
  maxFileSize : Int
  maxSnapshots : Nat
deriving DecidableEq

/-- `watchSetRuntime` from watcher.go: per-set data with normalized
directory paths. -/
structure WatchSetRuntime where
  name : Str
  dirs : List Str
  extSet : List Str
  excludePatterns : List Str
  debounceSec : Nat
  maxFileSize : Int
  maxSnapshots : Nat
deriving DecidableEq

/-- Directory normalization in `watcher.New`: ensure a trailing
separator. -/
def normalizeDir (d : Str) : Str :=
  if d.getLast? = some sepByte then d else d ++ [sepByte]

/-- Build a `watchSetRuntime` from a configured watch set, as
`watcher.New` does. -/
def mkRuntime (ws : WatchSetCfg) : WatchSetRuntime :=
  ⟨ws.name, ws.dirs.map normalizeDir, ws.extensions, ws.excludePatterns,
   ws.debounceSec, ws.maxFileSize, ws.maxSnapshots⟩

/-- One root directory covers a path, in the sense tested by
`findWatchSet`: the normalized root is a leading segment of the path, or
the path is exactly the root without its trailing separator. -/
def coversB (dir filePath : Str) : Bool :=
  dir.isPrefixOf filePath || filePath ++ [sepByte] == dir

/-- The inner loop of `findWatchSet` over one set's directories,
carrying the current best match and its length. -/
def scanDirs (ws : WatchSetRuntime) (filePath : Str) :
    List Str → Option (WatchSetRuntime × Nat) → Option (WatchSetRuntime × Nat)
  | [], b => b
  | dir :: rest, b =>
    let bestLen := match b with | none => 0 | some q => q.2
    if dir.isPrefixOf filePath = true ∧ bestLen < dir.length then
      scanDirs ws filePath rest (some (ws, dir.length))
    else if filePath ++ [sepByte] = dir ∧ bestLen < dir.length then
      scanDirs ws filePath rest (some (ws, dir.length))
    else
      scanDirs ws filePath rest b

/-- The outer loop of `findWatchSet` over all sets. -/
def scanSets (filePath : Str) :
    List WatchSetRuntime → Option (WatchSetRuntime × Nat) → Option (WatchSetRuntime × Nat)
  | [], b => b
  | ws :: rest, b => scanSets filePath rest (scanDirs ws filePath ws.dirs b)

/-- `findWatchSet` from watcher.go: longest-match selection of the watch
set owning a path. -/
def findWatchSet (sets : List WatchSetRuntime) (filePath : Str) : Option WatchSetRuntime :=
  (scanSets filePath sets none).map Prod.fst

/-- The `bestLen` read off the loop accumulator of `findWatchSet`. -/
def bLen : Option (WatchSetRuntime × Nat) → Nat
  | none => 0
  | some q => q.2

/-- `isBinary` from filter.go: a NUL byte within the first 8 KiB. -/
def isBinary (data : Str) : Bool :=
  if data.length = 0 then false
  else
    let checkLen := if 8192 < data.length then 8192 else data.length
    (data.take checkLen).any (fun b => b == 0)

/-- A snapshot save job as enqueued by `takeSnapshot`. -/
structure SaveJob where
  filePath : Str
  content : Str
  maxSnapshots : Nat
deriving DecidableEq

/-- `takeSnapshot` from watcher.go: the capture procedure run when a
debounce timer fires.  `statSize` is the `os.Stat` outcome (file size, or
none on error) and `readContent` the `os.ReadFile` outcome; the function
returns the job sent to the capture queue, or none when the capture is
aborted. -/
def takeSnapshotGo (sets : List WatchSetRuntime) (filePath : Str)
    (statSize : Option Int) (readContent : Option Str) : Option SaveJob :=
  match findWatchSet sets filePath with
  | none => none
  | some ws =>
    match statSize with
    | none => none
    | some size =>
      if ws.maxFileSize < size then none
      else if size = 0 then none
      else
        match readContent with
        | none => none
        | some content =>
          if isBinary content then none
          else some ⟨filePath, content, ws.maxSnapshots⟩

/-- An entry of the pending-rename map. -/
structure PendingRename where
  oldPath : Str
  timestamp : Int
deriving DecidableEq

/-- `renameTimeout` from watcher.go, in milliseconds. -/
def renameTimeoutMs : Int := 500

/-- `tryMatchRename` from watcher.go.  The pending-rename map is carried
as an association list in Go map iteration order (which the language
leaves unspecified); `track` is the `shouldTrack` predicate and `now` the
current time in milliseconds.  Entries visited while stale are deleted;
the first visited trackable entry is deleted and dispatched as a rename
job `(old, newPath)`, ending the scan; remaining entries are untouched.
Returns the resulting map and the dispatched pair, if any. -/
def tryMatchRenameGo (track : Str → Bool) (now : Int) :
    List (Str × PendingRename) → Str → List (Str × PendingRename) × Option (Str × Str)
  | [], _ => ([], none)
  | e :: rest, newPath =>
    if renameTimeoutMs < now - e.2.timestamp then
      tryMatchRenameGo track now rest newPath
    else if track e.1 then
      (rest, some (e.1, newPath))
    else
      let r := tryMatchRenameGo track now rest newPath
      (e :: r.1, r.2)

/-- Number of snapshot rows stored for one file. -/
def countFileSnaps (snaps : List SnapRec) (fid : Nat) : Nat :=
  (snaps.filter (fun s => decide (s.fileId = fid))).length

/-- Ordering of `HistoryEntry` rows corresponding to
`ORDER BY s.timestamp DESC, s.id DESC`. -/
def entryGE (a b : HistoryEntry) : Bool :=
  decide (b.timestamp < a.timestamp ∨ (a.timestamp = b.timestamp ∧ b.snapshotId ≤ a.snapshotId))

/-- An entry of the pending map is stale at `now` when it is older than
the 500 ms rename window. -/
def staleAt (now : Int) (e : Str × PendingRename) : Bool :=
  decide (renameTimeoutMs < now - e.2.timestamp)

/-! ### Concrete instances used to evaluate the theorems -/

/-- A store with one file (path `/a`), three of its snapshots, and one
rename row, used to evaluate `GetRecentSnapshots`. -/
def c2Store : Store :=
  ⟨[⟨0, [47, 97], 1, 30⟩],
   [⟨1, 0, [120], 1, [104], 10⟩, ⟨2, 0, [121], 1, [105], 20⟩, ⟨3, 0, [122], 1, [106], 30⟩],
   [⟨4, 0, 0, [47, 97], [47, 98], 40⟩],
   5⟩

/-- A watch group configured with the single root `/a`. -/
def c3Cfg : WatchSetCfg := ⟨[103], [[47, 97]], [], [], 2, 1048576, 0⟩

/-- A pending-rename map holding `p1` (age 200 ms), `p2` (age 400 ms) and
`p3` (age 1000 ms) at time 1000. -/
def c7Pending : List (Str × PendingRename) :=
  [([112, 49], ⟨[112, 49], 800⟩), ([112, 50], ⟨[112, 50], 600⟩), ([112, 51], ⟨[112, 51], 0⟩)]

/-- A watch group with root `/a` and `max_file_size` 10. -/
def c8Cfg : WatchSetCfg := ⟨[103], [[47, 97]], [], [], 2, 10, 7⟩

/-- A pending-rename map holding a single entry that is 1000 ms old at
time 1000. -/
def c7StaleOnly : List (Str × PendingRename) := [([112, 51], ⟨[112, 51], 0⟩)]

end LocalTextHistory

namespace LocalTextHistory

/-! ### Generic list lemmas -/

theorem find?_append_of_none {α} {p : α → Bool} {l₁ l₂ : List α} (h : l₁.find? p = none) :
    (l₁ ++ l₂).find? p = l₂.find? p := by
  induction l₁ with
  | nil => rfl
  | cons a l ih =>
    rw [List.cons_append]
    rw [List.find?_cons] at h ⊢
    cases hp : p a with
    | true => simp [hp] at h
    | false =>
      simp only [hp] at h ⊢
      exact ih h

theorem find?_map_of_pred_preserved {α} {g : α → α} {p : α → Bool} {l : List α} {f : α}
    (hp : ∀ x, p (g x) = p x) (hf : l.find? p = some f) :
    (l.map g).find? p = some (g f) := by
  induction l with
  | nil => simp at hf
  | cons a l ih =>
    rw [List.find?_cons] at hf
    rw [List.map_cons, List.find?_cons]
    cases hpa : p a with
    | true =>
      simp only [hpa] at hf
      rw [Option.some_inj.mp hf] at hpa ⊢
      simp [hp, hpa]
    | false =>
      simp only [hpa] at hf
      simp only [hp, hpa]
      exact ih hf

theorem length_filterMap_eq_countP {α β} (f : α → Option β) (l : List α) :
    (l.filterMap f).length = l.countP (fun a => (f a).isSome) := by
  induction l with
  | nil => rfl
  | cons a l ih =>
    rw [List.filterMap_cons, List.countP_cons]
    cases hfa : f a with
    | none => simp [hfa, ih]
    | some b => simp [hfa, ih]

theorem pairwise_filterMap_transfer {α β} {R : α → α → Prop} {S : β → β → Prop}
    (f : α → Option β) (h : ∀ a b x y, R a b → f a = some x → f b = some y → S x y)
    {l : List α} (hl : l.Pairwise R) : (l.filterMap f).Pairwise S := by
  induction l with
  | nil => simp
  | cons a l ih =>
    rcases List.pairwise_cons.mp hl with ⟨ha, hl2⟩
    rw [List.filterMap_cons]
    cases hfa : f a with
    | none => exact ih hl2
    | some x =>
      refine List.pairwise_cons.mpr ⟨?_, ih hl2⟩
      intro y hy
      rcases List.mem_filterMap.mp hy with ⟨b, hb, hfb⟩
      exact h a b x y (ha b hb) hfa hfb

/-! ### Ordering lemmas for the snapshot sort -/

theorem snapGE_total (a b : SnapRec) : snapGE a b = true ∨ snapGE b a = true := by
  simp only [snapGE, decide_eq_true_eq]
  omega

theorem snapGE_trans {a b c : SnapRec} (h1 : snapGE a b = true) (h2 : snapGE b c = true) :
    snapGE a c = true := by
  simp only [snapGE, decide_eq_true_eq] at h1 h2 ⊢
  omega

theorem snapGE_false_of {t s : SnapRec} (h1 : t.timestamp ≤ s.timestamp) (h2 : t.id < s.id) :
    snapGE t s = false := by
  simp only [snapGE, decide_eq_false_iff_not]
  omega

theorem insertSnapDesc_perm (s : SnapRec) (l : List SnapRec) :
    (insertSnapDesc s l).Perm (s :: l) := by
  induction l with
  | nil => exact List.Perm.refl _
  | cons t ts ih =>
    by_cases h : snapGE s t = true
    · rw [insertSnapDesc, if_pos h]
    · rw [insertSnapDesc, if_neg h]
      exact (List.Perm.cons t ih).trans (List.Perm.swap s t ts)

theorem sortSnapsDesc_perm (l : List SnapRec) : (sortSnapsDesc l).Perm l := by
  induction l with
  | nil => exact List.Perm.refl _
  | cons s ts ih =>
    exact (insertSnapDesc_perm s (sortSnapsDesc ts)).trans (List.Perm.cons s ih)

theorem pairwise_insertSnapDesc {s : SnapRec} {l : List SnapRec}
    (h : l.Pairwise (fun a b => snapGE a b = true)) :
    (insertSnapDesc s l).Pairwise (fun a b => snapGE a b = true) := by
  induction l with
  | nil => simp [insertSnapDesc]
  | cons t ts ih =>
    rcases List.pairwise_cons.mp h with ⟨ht, hts⟩
    by_cases hst : snapGE s t = true
    · rw [insertSnapDesc, if_pos hst]
      refine List.pairwise_cons.mpr ⟨?_, h⟩
      intro x hx
      rcases List.mem_cons.mp hx with rfl | hx2
      · exact hst
      · exact snapGE_trans hst (ht x hx2)
    · rw [insertSnapDesc, if_neg hst]
      refine List.pairwise_cons.mpr ⟨?_, ih hts⟩
      intro x hx
      rcases List.mem_cons.mp ((insertSnapDesc_perm s ts).mem_iff.mp hx) with rfl | hx2
      · rcases snapGE_total t x with h1 | h2
        · exact h1
        · exact absurd h2 (by simp [hst])
      · exact ht x hx2

theorem sortSnapsDesc_pairwise (l : List SnapRec) :
    (sortSnapsDesc l).Pairwise (fun a b => snapGE a b = true) := by
  induction l with
  | nil => simp [sortSnapsDesc]
  | cons s ts ih => exact pairwise_insertSnapDesc ih

theorem sortSnapsDesc_cons (s : SnapRec) (l : List SnapRec) :
    sortSnapsDesc (s :: l) = insertSnapDesc s (sortSnapsDesc l) := rfl

theorem sortSnapsDesc_append_max (l : List SnapRec) (s : SnapRec)
    (h : ∀ t ∈ l, snapGE t s = false) :
    sortSnapsDesc (l ++ [s]) = s :: sortSnapsDesc l := by
  induction l with
  | nil => rfl
  | cons t ts ih =>
    have hts : ∀ u ∈ ts, snapGE u s = false := fun u hu => h u (List.mem_cons_of_mem t hu)
    rw [List.cons_append, sortSnapsDesc_cons, ih hts, sortSnapsDesc_cons]
    rw [insertSnapDesc, if_neg (by simp [h t (List.mem_cons_self t ts)])]

/-! ### Lemmas on the latest-snapshot scan -/

theorem latestFold_mem (fid : Nat) (l : List SnapRec) :
    ∀ acc b, l.foldl (latestStep fid) acc = some b → (b ∈ l ∧ b.fileId = fid) ∨ acc = some b := by
  induction l with
  | nil => intro acc b h; right; exact h
  | cons t ts ih =>
    intro acc b h
    rw [List.foldl_cons] at h
    rcases ih _ b h with ⟨hmem, hfid⟩ | hacc
    · exact Or.inl ⟨List.mem_cons_of_mem t hmem, hfid⟩
    · by_cases hf : t.fileId = fid
      · cases acc with
        | none =>
          have he : latestStep fid none t = some t := by simp [latestStep, hf]
          rw [he] at hacc
          left
          rw [← Option.some_inj.mp hacc]
          exact ⟨List.mem_cons_self t ts, hf⟩
        | some c =>
          by_cases hle : c.timestamp < t.timestamp
          · have he : latestStep fid (some c) t = some t := by simp [latestStep, hf, hle]
            rw [he] at hacc
            left
            rw [← Option.some_inj.mp hacc]
            exact ⟨List.mem_cons_self t ts, hf⟩
          · have he : latestStep fid (some c) t = some c := by simp [latestStep, hf, hle]
            rw [he] at hacc
            right
            exact hacc
      · have he : latestStep fid acc t = acc := by simp [latestStep, hf]
        rw [he] at hacc
        right
        exact hacc

theorem latestSnapFor_append (l : List SnapRec) (s : SnapRec) (fid : Nat)
    (hf : s.fileId = fid)
    (h : ∀ t ∈ l, t.fileId = fid → t.timestamp < s.timestamp) :
    latestSnapFor (l ++ [s]) fid = some s := by
  unfold latestSnapFor
  rw [List.foldl_append, List.foldl_cons, List.foldl_nil]
  cases hacc : l.foldl (latestStep fid) none with
  | none => simp [latestStep, hf]
  | some b =>
    rcases latestFold_mem fid l none b hacc with ⟨hb, hbfid⟩ | habs
    · simp [latestStep, hf, h b hb hbfid]
    · simp at habs

theorem latestHash_append (l : List SnapRec) (s : SnapRec) (fid : Nat)
    (hf : s.fileId = fid)
    (h : ∀ t ∈ l, t.fileId = fid → t.timestamp < s.timestamp) :
    latestHash (l ++ [s]) fid = some s.hash := by
  unfold latestHash
  rw [latestSnapFor_append l s fid hf h]
  rfl

/-! ### Lemmas on retention pruning -/

theorem snapPruneGE_false_of {t s : SnapRec} (h : t.timestamp < s.timestamp) :
    snapPruneGE t s = false := by
  simp only [snapPruneGE, decide_eq_false_iff_not]
  omega

theorem sortSnapsPrune_cons (s : SnapRec) (l : List SnapRec) :
    sortSnapsPrune (s :: l) = insertSnapPrune s (sortSnapsPrune l) := rfl

theorem sortSnapsPrune_append_max (l : List SnapRec) (s : SnapRec)
    (h : ∀ t ∈ l, snapPruneGE t s = false) :
    sortSnapsPrune (l ++ [s]) = s :: sortSnapsPrune l := by
  induction l with
  | nil => rfl
  | cons t ts ih =>
    have hts : ∀ u ∈ ts, snapPruneGE u s = false := fun u hu => h u (List.mem_cons_of_mem t hu)
    rw [List.cons_append, sortSnapsPrune_cons, ih hts, sortSnapsPrune_cons]
    rw [insertSnapPrune, if_neg (by simp [h t (List.mem_cons_self t ts)])]

theorem pruneFile_append_shape (n : Nat) (l : List SnapRec) (s : SnapRec) (fid : Nat)
    (hn : 0 < n) (hf : s.fileId = fid)
    (hts : ∀ t ∈ l, t.fileId = fid → t.timestamp < s.timestamp) :
    ∃ l2, pruneFile n (l ++ [s]) fid = l2 ++ [s] ∧ l2.Sublist l := by
  unfold pruneFile
  rw [List.filter_append, List.filter_append]
  have hsf : (fun t : SnapRec => decide (t.fileId = fid)) s = true := by simp [hf]
  rw [show List.filter (fun t : SnapRec => decide (t.fileId = fid)) [s] = [s] by
    simp [List.filter, hsf]]
  set lf := l.filter (fun t : SnapRec => decide (t.fileId = fid)) with hlf
  have hmax : ∀ t ∈ lf, snapPruneGE t s = false := by
    intro t htmem
    rcases List.mem_filter.mp htmem with ⟨htl, htfid⟩
    exact snapPruneGE_false_of (hts t htl (by simpa using htfid))
  rw [sortSnapsPrune_append_max lf s hmax]
  cases n with
  | zero => omega
  | succ m =>
    rw [List.take_succ_cons, List.map_cons]
    have hsp : (fun t : SnapRec =>
        decide (¬ t.fileId = fid ∨ t.id ∈ s.id :: ((sortSnapsPrune lf).take m).map SnapRec.id)) s
        = true := by
      simp
    rw [show List.filter (fun t : SnapRec =>
        decide (¬ t.fileId = fid ∨ t.id ∈ s.id :: ((sortSnapsPrune lf).take m).map SnapRec.id)) [s]
        = [s] by simp [List.filter, hsp]]
    exact ⟨_, rfl, List.filter_sublist l⟩

theorem countFileSnaps_pruneFile_le (n : Nat) (m : List SnapRec) (fid : Nat)
    (hnodup : (m.map SnapRec.id).Nodup) :
    countFileSnaps (pruneFile n m fid) fid ≤ n := by
  unfold countFileSnaps pruneFile
  set keepIds := ((sortSnapsPrune (m.filter (fun s => decide (s.fileId = fid)))).take n).map
    SnapRec.id with hkeep
  set A := (m.filter (fun s : SnapRec => decide (¬ s.fileId = fid ∨ s.id ∈ keepIds))).filter
    (fun s : SnapRec => decide (s.fileId = fid)) with hA
  have hsub : A.Sublist m := (List.filter_sublist _).trans (List.filter_sublist _)
  have hAnodup : (A.map SnapRec.id).Nodup := (hsub.map SnapRec.id).nodup hnodup
  have hmem : ∀ i ∈ A.map SnapRec.id, i ∈ keepIds := by
    intro i hi
    rcases List.mem_map.mp hi with ⟨t, ht, rfl⟩
    rcases List.mem_filter.mp ht with ⟨ht2, htfid⟩
    rcases List.mem_filter.mp ht2 with ⟨_, hpred⟩
    rcases decide_eq_true_eq.mp hpred with hno | hin
    · exact absurd (decide_eq_true_eq.mp htfid) hno
    · exact hin
  have hlen : (A.map SnapRec.id).length ≤ keepIds.length :=
    (hAnodup.subperm hmem).length_le
  have hkl : keepIds.length ≤ n := by
    rw [hkeep, List.length_map]
    exact List.length_take_le n _
  calc A.length = (A.map SnapRec.id).length := (List.length_map A SnapRec.id).symm
    _ ≤ keepIds.length := hlen
    _ ≤ n := hkl

theorem filter_filter_eq_of_imp {α} {p q : α → Bool} (l : List α)
    (h : ∀ a ∈ l, q a = true → p a = true) :
    (l.filter p).filter q = l.filter q := by
  induction l with
  | nil => rfl
  | cons a t ih =>
    have ht : ∀ x ∈ t, q x = true → p x = true := fun x hx => h x (List.mem_cons_of_mem a hx)
    by_cases hq : q a = true
    · have hp := h a (List.mem_cons_self a t) hq
      simp [List.filter_cons, hp, hq, ih ht]
    · by_cases hp : p a = true
      · simp [List.filter_cons, hp, hq, ih ht]
      · simp [List.filter_cons, hp, hq, ih ht]

theorem countFileSnaps_pruneFile_other (n : Nat) (m : List SnapRec) (fid fid2 : Nat)
    (hne : fid2 ≠ fid) :
    countFileSnaps (pruneFile n m fid) fid2 = countFileSnaps m fid2 := by
  unfold countFileSnaps pruneFile
  rw [filter_filter_eq_of_imp]
  intro a _ hq
  simp only [decide_eq_true_eq] at hq ⊢
  left
  rw [hq]
  exact hne

/-! ### C1: SaveRename on an untracked source path -/

/-- C1: the claim says `save_rename(old, new)` returns `("", nil)` when
no TrackedFile exists at `old_path`.  The code instead propagates
`sql.ErrNoRows` as a non-nil error: on the empty store, renaming the
untracked path `/n` to `/m` yields an error, not a nil-error success.
The repository's own test `TestSaveRename_OldFileNotFound` requires a nil
error and an empty identifier, and the worker's silent-skip branch for an
empty identifier is unreachable on the error path, so the claim states
the intent and the code is a slip. -/
theorem saveRename_untracked_returns_error :
    SaveRename 0 Store.empty [47, 110] [47, 109] = Except.error RenameErr.oldFileNotFound := by
  rfl

/-! ### C2: GetRecentSnapshots vs the history-union claim -/

/-- C2 counterexample: on a store holding three snapshots and one rename,
`get_recent_history` with limit 2 returns 2 rows, although the claim
requires `limit+1 = 3` rows (more than `limit` matching entries exist);
and even with a large limit every returned row is a snapshot row — the
rename row never appears, although the claim requires the union of
Snapshots and Renames. -/
theorem getRecent_misses_renames_and_extra_row :
    (GetRecentSnapshots c2Store 2).length = 2 ∧
    2 < c2Store.snapshots.length + c2Store.renames.length ∧
    c2Store.renames.length = 1 ∧
    (∀ e ∈ GetRecentSnapshots c2Store 50, e.snapshotId ∈ c2Store.snapshots.map SnapRec.id) := by
  decide

/-! ### C3: findWatchSet vs the plain longest-string-prefix claim -/

/-- C3 counterexample: the configured root `/a` is a string prefix of the
path `/ab` (and the only root, hence the longest such prefix), so the
claim requires `group_of` to return its group; but `findWatchSet`
normalizes the root to `/a/` and returns none. -/
theorem findWatchSet_not_plain_string_match :
    List.isPrefixOf [47, 97] [47, 97, 98] = true ∧
    c3Cfg.dirs = [[47, 97]] ∧
    findWatchSet [mkRuntime c3Cfg] [47, 97, 98] = none := by
  decide

/-! ### C7: tryMatchRename vs the discard-all-stale / oldest-first claim -/

/-- C7 counterexample: at time 1000 the pending map (in iteration order)
holds `p1` (200 ms old), `p2` (400 ms old) and `p3` (1000 ms old), all
with trackable sources.  The claim requires every entry older than 500 ms
(`p3`) to be discarded and the oldest remaining entry (`p2`, timestamp
600) to be consumed.  The code instead consumes the first visited entry
`p1` (timestamp 800, not the oldest) and leaves the stale `p3` in the
map. -/
theorem tryMatchRename_not_oldest_and_keeps_stale :
    (tryMatchRenameGo (fun _ => true) 1000 c7Pending [110, 112]).2
      = some ([112, 49], [110, 112]) ∧
    (∃ e ∈ c7Pending, e.2.timestamp < 800 ∧ staleAt 1000 e = false ∧ e.1 ≠ [112, 49]) ∧
    (∃ e ∈ (tryMatchRenameGo (fun _ => true) 1000 c7Pending [110, 112]).1,
       staleAt 1000 e = true) := by
  decide

/-! ### C8: the capture procedure's abort conditions -/

/-- C8: `takeSnapshot` enqueues a save job precisely when the path
belongs to a watch set, the stat succeeds with a size that is positive
and at most the set's `max_file_size` (so a file of exactly
`max_file_size` is captured and one byte more is not), the read succeeds
and the content is not classified binary; in every other case it aborts
and enqueues nothing.  The enqueued job pairs the path, the content read
and the set's retention.  `hstat` records the `os.Stat` contract that a
regular file's size is non-negative. -/
theorem takeSnapshot_enqueues_iff (sets : List WatchSetRuntime) (p : Str)
    (statSize : Option Int) (readContent : Option Str)
    (hstat : ∀ size, statSize = some size → 0 ≤ size) :
    ((∃ j, takeSnapshotGo sets p statSize readContent = some j) ↔
      ∃ ws size content, findWatchSet sets p = some ws ∧ statSize = some size ∧
        0 < size ∧ size ≤ ws.maxFileSize ∧ readContent = some content ∧
        isBinary content = false) ∧
    (∀ j, takeSnapshotGo sets p statSize readContent = some j →
      ∃ ws content, findWatchSet sets p = some ws ∧ readContent = some content ∧
        j = ⟨p, content, ws.maxSnapshots⟩) := by
  constructor
  · constructor
    · rintro ⟨j, hj⟩
      cases hws : findWatchSet sets p with
      | none => simp [takeSnapshotGo, hws] at hj
      | some ws =>
        cases statSize with
        | none => simp [takeSnapshotGo, hws] at hj
        | some size =>
          cases readContent with
          | none =>
            simp only [takeSnapshotGo, hws] at hj
            by_cases hbig : ws.maxFileSize < size
            · rw [if_pos hbig] at hj; simp at hj
            · rw [if_neg hbig] at hj
              by_cases hz : size = 0
              · rw [if_pos hz] at hj; simp at hj
              · rw [if_neg hz] at hj; simp at hj
          | some content =>
            simp only [takeSnapshotGo, hws] at hj
            by_cases hbig : ws.maxFileSize < size
            · rw [if_pos hbig] at hj; simp at hj
            · rw [if_neg hbig] at hj
              by_cases hz : size = 0
              · rw [if_pos hz] at hj; simp at hj
              · rw [if_neg hz] at hj
                by_cases hbin : isBinary content = true
                · rw [if_pos hbin] at hj; simp at hj
                · refine ⟨ws, size, content, rfl, rfl, ?_, not_lt.mp hbig, rfl,
                    Bool.eq_false_iff.mpr hbin⟩
                  have := hstat size rfl
                  omega
    · rintro ⟨ws, size, content, hws, rfl, hpos, hle, rfl, hbin⟩
      refine ⟨⟨p, content, ws.maxSnapshots⟩, ?_⟩
      simp only [takeSnapshotGo, hws]
      rw [if_neg (not_lt.mpr hle), if_neg (show ¬ size = 0 by omega)]
      simp [hbin]
  · intro j hj
    cases hws : findWatchSet sets p with
    | none => simp [takeSnapshotGo, hws] at hj
    | some ws =>
      cases statSize with
      | none => simp [takeSnapshotGo, hws] at hj
      | some size =>
        cases readContent with
        | none =>
          simp only [takeSnapshotGo, hws] at hj
          by_cases hbig : ws.maxFileSize < size
          · rw [if_pos hbig] at hj; simp at hj
          · rw [if_neg hbig] at hj
            by_cases hz : size = 0
            · rw [if_pos hz] at hj; simp at hj
            · rw [if_neg hz] at hj; simp at hj
        | some content =>
          simp only [takeSnapshotGo, hws] at hj
          by_cases hbig : ws.maxFileSize < size
          · rw [if_pos hbig] at hj; simp at hj
          · rw [if_neg hbig] at hj
            by_cases hz : size = 0
            · rw [if_pos hz] at hj; simp at hj
            · rw [if_neg hz] at hj
              by_cases hbin : isBinary content = true
              · rw [if_pos hbin] at hj; simp at hj
              · rw [if_neg hbin] at hj
                exact ⟨ws, content, rfl, rfl, (Option.some_inj.mp hj).symm⟩

/-- C8 witness: with root `/a` and `max_file_size` 10, the path `/a/b`
with stat size exactly 10 and non-binary content is captured, and with
size 11 it is not. -/
theorem takeSnapshot_enqueues_iff_witness :
    (∃ j, takeSnapshotGo [mkRuntime c8Cfg] [47, 97, 47, 98] (some 10) (some [104]) = some j) ∧
    ¬ (∃ j, takeSnapshotGo [mkRuntime c8Cfg] [47, 97, 47, 98] (some 11) (some [104]) = some j) := by
  constructor
  · exact (takeSnapshot_enqueues_iff [mkRuntime c8Cfg] [47, 97, 47, 98] (some 10) (some [104])
      (by intro size h; cases h; decide)).1.mpr
      ⟨mkRuntime c8Cfg, 10, [104], by decide, rfl, by decide, by decide, rfl, by decide⟩
  · intro hex
    rcases (takeSnapshot_enqueues_iff [mkRuntime c8Cfg] [47, 97, 47, 98] (some 11) (some [104])
      (by intro size h; cases h; decide)).1.mp hex with
      ⟨ws, size, content, hws, hss, hpos, hle, hrc, hbin⟩
    cases hss
    have hws2 : ws = mkRuntime c8Cfg := by
      have : findWatchSet [mkRuntime c8Cfg] [47, 97, 47, 98] = some (mkRuntime c8Cfg) := by decide
      rw [this] at hws
      exact (Option.some_inj.mp hws).symm
    rw [hws2] at hle
    revert hle
    decide

/-! ### C9: SaveSnapshotBatch on commit failure -/

/-- On begin success and commit failure, `SaveSnapshotBatch` maps the
in-transaction results through the error-marking transform and rolls the
store back; this is definitional. -/
theorem saveBatch_fail_eq (cfg : DBCfg) (now : Int) (st : Store) (items : List (Str × Str)) :
    SaveSnapshotBatch cfg now st items true false =
      ((runBatchInTx cfg now st items).1.map
        (fun s => if s then (false, some DBErr.commitTx) else (s, none)), st) := rfl

/-- C9: when the final commit of a batch fails, the transaction rolls
back (the store is unchanged) and every item is reported with
`saved=false`; every item whose in-transaction save had succeeded carries
the commit error. -/
theorem saveBatch_commit_failure_reverts (cfg : DBCfg) (now : Int) (st : Store)
    (items : List (Str × Str)) :
    (SaveSnapshotBatch cfg now st items true false).2 = st ∧
    (∀ e ∈ (SaveSnapshotBatch cfg now st items true false).1, e.1 = false) ∧
    (∀ i : Nat, ∀ s : Bool, (runBatchInTx cfg now st items).1[i]? = some s →
      (SaveSnapshotBatch cfg now st items true false).1[i]?
        = some (false, if s then some DBErr.commitTx else none)) := by
  refine ⟨rfl, ?_, ?_⟩
  · intro e he
    rw [saveBatch_fail_eq] at he
    rcases List.mem_map.mp he with ⟨s, _, hs⟩
    cases s <;> rw [← hs] <;> rfl
  · intro i s hs
    rw [saveBatch_fail_eq]
    simp only [List.getElem?_map, hs]
    cases s <;> rfl

/-- C9 witness: a concrete two-item batch (one fresh save that succeeds
in the transaction, one duplicate) on a commit that fails. -/
theorem saveBatch_commit_failure_reverts_witness :
    (SaveSnapshotBatch (idCfg 0) 7 Store.empty [([47, 97], [104]), ([47, 97], [104])] true false).2
      = Store.empty ∧
    (SaveSnapshotBatch (idCfg 0) 7 Store.empty [([47, 97], [104]), ([47, 97], [104])] true false).1[0]?
      = some (false, some DBErr.commitTx) := by
  constructor
  · exact (saveBatch_commit_failure_reverts (idCfg 0) 7 Store.empty
      [([47, 97], [104]), ([47, 97], [104])]).1
  · have hpre : (runBatchInTx (idCfg 0) 7 Store.empty
        [([47, 97], [104]), ([47, 97], [104])]).1[0]? = some true := by
      set_option maxRecDepth 100000 in decide
    have h := (saveBatch_commit_failure_reverts (idCfg 0) 7 Store.empty
      [([47, 97], [104]), ([47, 97], [104])]).2.2 0 true hpre
    simpa using h

/-! ### Lemmas on the save path -/

theorem nodup_ids_append_snap {l : List SnapRec} {s : SnapRec}
    (hnodup : (l.map SnapRec.id).Nodup) (hlt : ∀ t ∈ l, t.id < s.id) :
    ((l ++ [s]).map SnapRec.id).Nodup := by
  rw [List.map_append]
  refine hnodup.append (List.nodup_singleton s.id) ?_
  intro a ha hb
  rcases List.mem_map.mp ha with ⟨t, ht, rfl⟩
  rcases List.mem_singleton.mp hb with h
  have := hlt t ht
  omega

theorem countFileSnaps_append_other {l : List SnapRec} {s : SnapRec} {fid : Nat}
    (h : ¬ s.fileId = fid) :
    countFileSnaps (l ++ [s]) fid = countFileSnaps l fid := by
  unfold countFileSnaps
  rw [List.filter_append]
  simp [List.filter_cons, h]

/-- After any save of content `c` for path `p`, the path's file row is
found and its latest snapshot hash is the SHA-256 of `c`: the central
fact behind duplicate suppression. -/
theorem latest_after_save (cfg : DBCfg) (now : Int) (st : Store) (p c : Str)
    (hwf : Store.WF st) (hts : ∀ s ∈ st.snapshots, s.timestamp < now) :
    ∃ f1, (saveSnapshotInTx cfg now st p c).2.files.find? (fun f => decide (f.path = p)) = some f1 ∧
      latestHash (saveSnapshotInTx cfg now st p c).2.snapshots f1.id = some (sha256hex c) := by
  obtain ⟨hnodup, hsid, hfid⟩ := hwf
  cases hfind : st.files.find? (fun f => decide (f.path = p)) with
  | none =>
    simp only [saveSnapshotInTx, hfind]
    refine ⟨⟨st.nextId, p, now, now⟩, ?_, ?_⟩
    · rw [find?_append_of_none hfind]
      simp [List.find?]
    · by_cases hn : 0 < cfg.maxSnapshots
      · rw [if_pos hn]
        obtain ⟨l2, heq, hsub⟩ := pruneFile_append_shape cfg.maxSnapshots st.snapshots
          ⟨st.nextId + 1, st.nextId, cfg.enc c, (c.length : Int), sha256hex c, now⟩ st.nextId
          hn rfl (fun t htm _ => hts t htm)
        rw [heq]
        exact latestHash_append l2 _ st.nextId rfl (fun t htm _ => hts t (hsub.subset htm))
      · rw [if_neg hn]
        exact latestHash_append st.snapshots _ st.nextId rfl (fun t htm _ => hts t htm)
  | some f =>
    have hfmem : f ∈ st.files := List.mem_of_find?_eq_some hfind
    by_cases hlat : latestHash st.snapshots f.id = some (sha256hex c)
    · simp only [saveSnapshotInTx, hfind]
      rw [if_pos hlat]
      exact ⟨f, hfind, hlat⟩
    · simp only [saveSnapshotInTx, hfind]
      rw [if_neg hlat]
      refine ⟨{ f with updated := now }, ?_, ?_⟩
      · have hfd := find?_map_of_pred_preserved
          (g := fun g => if g.id = f.id then { g with updated := now } else g)
          (p := fun g : FileRec => decide (g.path = p))
          (fun x => by by_cases hx : x.id = f.id <;> simp [hx]) hfind
        simpa using hfd
      · show latestHash _ ({ f with updated := now } : FileRec).id = _
        by_cases hn : 0 < cfg.maxSnapshots
        · rw [if_pos hn]
          obtain ⟨l2, heq, hsub⟩ := pruneFile_append_shape cfg.maxSnapshots st.snapshots
            ⟨st.nextId, f.id, cfg.enc c, (c.length : Int), sha256hex c, now⟩ f.id
            hn rfl (fun t htm _ => hts t htm)
          rw [heq]
          exact latestHash_append l2 _ f.id rfl (fun t htm _ => hts t (hsub.subset htm))
        · rw [if_neg hn]
          exact latestHash_append st.snapshots _ f.id rfl (fun t htm _ => hts t htm)

/-! ### C4: duplicate suppression for consecutive identical saves -/

/-- C4 counterexample: the claim promises that two consecutive saves of
byte-identical content always produce exactly one snapshot, the second
reporting `saved=false`.  But when the first of the identical pair lands
in the same second as an older, different-hash snapshot of the file, the
latest-hash subquery (`ORDER BY timestamp DESC LIMIT 1`, no id tiebreak)
returns the earliest-inserted of the tied rows — the older hash — so the
second identical save is not suppressed: saving `[104]`, `[105]`,
`[105]` all at time 5 yields `saved=true` on the third call and three
snapshot rows. -/
theorem second_save_same_second_tie_inserts :
    (saveSnapshotInTx (idCfg 0) 5 (saveSnapshotInTx (idCfg 0) 5
      (saveSnapshotInTx (idCfg 0) 5 Store.empty [47, 97] [104]).2 [47, 97] [105]).2
      [47, 97] [105]).1 = true ∧
    (saveSnapshotInTx (idCfg 0) 5 (saveSnapshotInTx (idCfg 0) 5
      (saveSnapshotInTx (idCfg 0) 5 Store.empty [47, 97] [104]).2 [47, 97] [105]).2
      [47, 97] [105]).2.snapshots.length = 3 := by
  set_option maxRecDepth 100000 in decide

/-- C4 amended: after a save of content `c` for path `p` whose timestamp
is strictly later than every snapshot already stored (no same-second
tie), a second save of the byte-identical content compares the SHA-256
of the bytes with the latest stored hash for that path, finds them
equal, and returns `saved=false` (nil error) leaving the store — in
particular the snapshot table — unchanged, so the two calls produce
exactly one snapshot.  The strictness matters: the latest-hash query has
no id tiebreak and returns the earliest-inserted row among those sharing
the newest timestamp, so a first save landing in the same second as an
older different-hash row is invisible to the duplicate check. -/
theorem second_save_same_content_suppressed (cfg : DBCfg) (now1 now2 : Int) (st : Store)
    (p c : Str) (hwf : Store.WF st) (hts : ∀ s ∈ st.snapshots, s.timestamp < now1) :
    saveSnapshotInTx cfg now2 (saveSnapshotInTx cfg now1 st p c).2 p c
      = (false, (saveSnapshotInTx cfg now1 st p c).2) := by
  obtain ⟨f1, hfind, hlat⟩ := latest_after_save cfg now1 st p c hwf hts
  set st1 := (saveSnapshotInTx cfg now1 st p c).2 with hst1
  simp only [saveSnapshotInTx, hfind]
  rw [if_pos hlat]

/-- C4 witness: a concrete pair of identical saves on the empty store. -/
theorem second_save_same_content_suppressed_witness :
    Store.WF Store.empty ∧
    saveSnapshotInTx (idCfg 0) 2 (saveSnapshotInTx (idCfg 0) 1 Store.empty [47, 97] [104]).2
      [47, 97] [104]
      = (false, (saveSnapshotInTx (idCfg 0) 1 Store.empty [47, 97] [104]).2) :=
  ⟨by decide, second_save_same_content_suppressed (idCfg 0) 1 2 Store.empty [47, 97] [104]
    (by decide) (by decide)⟩

/-! ### C5: the retention cap invariant -/

/-- C5: with a retention cap N>0, if every TrackedFile has at most N
snapshots, then after any save — which deletes all but the N newest
snapshots of the file it inserted into — every TrackedFile still has at
most N snapshots. -/
theorem retention_cap_invariant (cfg : DBCfg) (now : Int) (st : Store) (p c : Str)
    (hN : 0 < cfg.maxSnapshots) (hwf : Store.WF st)
    (hpre : ∀ fid, countFileSnaps st.snapshots fid ≤ cfg.maxSnapshots) :
    ∀ fid, countFileSnaps (saveSnapshotInTx cfg now st p c).2.snapshots fid ≤ cfg.maxSnapshots := by
  obtain ⟨hnodup, hsid, hfid⟩ := hwf
  intro fid
  cases hfind : st.files.find? (fun f => decide (f.path = p)) with
  | none =>
    simp only [saveSnapshotInTx, hfind]
    rw [if_pos hN]
    by_cases hf2 : fid = st.nextId
    · rw [hf2]
      exact countFileSnaps_pruneFile_le cfg.maxSnapshots
        (st.snapshots ++
          [⟨st.nextId + 1, st.nextId, cfg.enc c, (c.length : Int), sha256hex c, now⟩])
        st.nextId
        (nodup_ids_append_snap hnodup
          (fun t htm => by have := (hsid t htm).1; show t.id < st.nextId + 1; omega))
    · rw [countFileSnaps_pruneFile_other _ _ _ _ hf2,
        countFileSnaps_append_other (by simpa using fun h => hf2 h.symm)]
      exact hpre fid
  | some f =>
    by_cases hlat : latestHash st.snapshots f.id = some (sha256hex c)
    · simp only [saveSnapshotInTx, hfind]
      rw [if_pos hlat]
      exact hpre fid
    · simp only [saveSnapshotInTx, hfind]
      rw [if_neg hlat, if_pos hN]
      by_cases hf2 : fid = f.id
      · rw [hf2]
        exact countFileSnaps_pruneFile_le cfg.maxSnapshots
          (st.snapshots ++
            [⟨st.nextId, f.id, cfg.enc c, (c.length : Int), sha256hex c, now⟩]) f.id
          (nodup_ids_append_snap hnodup
            (fun t htm => by have := (hsid t htm).1; show t.id < st.nextId; omega))
      · rw [countFileSnaps_pruneFile_other _ _ _ _ hf2,
          countFileSnaps_append_other (by simpa using fun h => hf2 h.symm)]
        exact hpre fid

/-- C5 witness: a concrete save into the empty store under cap 3. -/
theorem retention_cap_invariant_witness :
    0 < (idCfg 3).maxSnapshots ∧
    countFileSnaps (saveSnapshotInTx (idCfg 3) 5 Store.empty [47, 97] [104]).2.snapshots 0
      ≤ (idCfg 3).maxSnapshots :=
  ⟨by decide, retention_cap_invariant (idCfg 3) 5 Store.empty [47, 97] [104]
    (by decide) (by decide) (fun fid => by simp [countFileSnaps, Store.empty, idCfg]) 0⟩

/-! ### C6: save, fetch, decompress round trip -/

/-- C6 counterexample: the claim promises that after `saved=true` the
saved content can be fetched back.  But the retention keep-subquery
(`ORDER BY timestamp DESC LIMIT n`, no id tiebreak) keeps the
earliest-inserted rows among timestamp ties, so with cap 1 a save that
lands in the same second as an existing different-hash snapshot of the
file reports `saved=true` and then has its own row deleted by the
retention `DELETE`: saving `[104]` at time 5 and then `[105]` at time 5
leaves a single snapshot, and no stored row holds the hash of `[105]` —
the reported save is not fetchable at all. -/
theorem save_tie_prune_deletes_new_snapshot :
    (saveSnapshotInTx (idCfg 1) 5 (saveSnapshotInTx (idCfg 1) 5 Store.empty [47, 97] [104]).2
      [47, 97] [105]).1 = true ∧
    (saveSnapshotInTx (idCfg 1) 5 (saveSnapshotInTx (idCfg 1) 5 Store.empty [47, 97] [104]).2
      [47, 97] [105]).2.snapshots.length = 1 ∧
    ∀ s ∈ (saveSnapshotInTx (idCfg 1) 5
      (saveSnapshotInTx (idCfg 1) 5 Store.empty [47, 97] [104]).2 [47, 97] [105]).2.snapshots,
      ¬ s.hash = sha256hex [105] := by
  set_option maxRecDepth 100000 in decide

/-- Whenever a save reports `saved=true`, the new snapshot row survives
retention pruning and sits at the end of the table, holding the
compressed content, the uncompressed length, the SHA-256 hex digest and
the save time, with a row id above every other remaining row. -/
theorem save_inserted_snapshot (cfg : DBCfg) (now : Int) (st : Store) (p c : Str)
    (hwf : Store.WF st) (hts : ∀ s ∈ st.snapshots, s.timestamp < now)
    (hsaved : (saveSnapshotInTx cfg now st p c).1 = true) :
    ∃ sid fid l2,
      (saveSnapshotInTx cfg now st p c).2.snapshots
        = l2 ++ [⟨sid, fid, cfg.enc c, (c.length : Int), sha256hex c, now⟩] ∧
      ∀ t ∈ l2, t.id < sid := by
  obtain ⟨hnodup, hsid, hfid⟩ := hwf
  cases hfind : st.files.find? (fun f => decide (f.path = p)) with
  | none =>
    simp only [saveSnapshotInTx, hfind]
    refine ⟨st.nextId + 1, st.nextId, ?_⟩
    by_cases hn : 0 < cfg.maxSnapshots
    · rw [if_pos hn]
      obtain ⟨l2, heq, hsub⟩ := pruneFile_append_shape cfg.maxSnapshots st.snapshots
        ⟨st.nextId + 1, st.nextId, cfg.enc c, (c.length : Int), sha256hex c, now⟩ st.nextId
        hn rfl (fun t htm _ => hts t htm)
      exact ⟨l2, heq, fun t htm => by have := (hsid t (hsub.subset htm)).1; omega⟩
    · rw [if_neg hn]
      exact ⟨st.snapshots, rfl, fun t htm => by have := (hsid t htm).1; omega⟩
  | some f =>
    by_cases hlat : latestHash st.snapshots f.id = some (sha256hex c)
    · exfalso
      simp only [saveSnapshotInTx, hfind] at hsaved
      rw [if_pos hlat] at hsaved
      simp at hsaved
    · simp only [saveSnapshotInTx, hfind]
      rw [if_neg hlat]
      refine ⟨st.nextId, f.id, ?_⟩
      by_cases hn : 0 < cfg.maxSnapshots
      · rw [if_pos hn]
        obtain ⟨l2, heq, hsub⟩ := pruneFile_append_shape cfg.maxSnapshots st.snapshots
          ⟨st.nextId, f.id, cfg.enc c, (c.length : Int), sha256hex c, now⟩ f.id
          hn rfl (fun t htm _ => hts t htm)
        exact ⟨l2, heq, fun t htm => (hsid t (hsub.subset htm)).1⟩
      · rw [if_neg hn]
        exact ⟨st.snapshots, rfl, fun t htm => (hsid t htm).1⟩

/-- C6 amended: whenever a save of content `c` inserts a snapshot and
the save's timestamp is strictly later than every stored snapshot's (no
same-second tie), fetching that snapshot by id returns a row whose
decompressed content is exactly the original bytes, whose stored `size`
is the uncompressed length of `c`, and whose stored `hash` is the
SHA-256 hex digest of `c`.  `hcodec` is the zstd library round-trip
contract for the store's codec.  The strictness matters: on a timestamp
tie the retention `DELETE` can remove the just-inserted row. -/
theorem save_fetch_decompress_roundtrip (cfg : DBCfg) (now : Int) (st : Store) (p c : Str)
    (hwf : Store.WF st) (hts : ∀ s ∈ st.snapshots, s.timestamp < now)
    (hcodec : ∀ b, cfg.dec (cfg.enc b) = b)
    (hsaved : (saveSnapshotInTx cfg now st p c).1 = true) :
    ∃ sid snap, GetSnapshot cfg (saveSnapshotInTx cfg now st p c).2 sid = some snap ∧
      snap.content = c ∧ snap.size = (c.length : Int) ∧ snap.hash = sha256hex c := by
  obtain ⟨sid, fid, l2, heq, hlt⟩ := save_inserted_snapshot cfg now st p c hwf hts hsaved
  refine ⟨sid, ⟨sid, fid, cfg.dec (cfg.enc c), (c.length : Int), sha256hex c, now⟩,
    ?_, hcodec c, rfl, rfl⟩
  unfold GetSnapshot
  rw [heq, find?_append_of_none (List.find?_eq_none.mpr ?_)]
  · simp [List.find?]
  · intro x hx
    have := hlt x hx
    simp only [decide_eq_true_eq]
    omega

/-- C6 witness: a concrete save on the empty store with the identity
codec. -/
theorem save_fetch_decompress_roundtrip_witness :
    ∃ sid snap,
      GetSnapshot (idCfg 0) (saveSnapshotInTx (idCfg 0) 5 Store.empty [47, 97] [104, 105]).2 sid
        = some snap ∧
      snap.content = [104, 105] ∧ snap.size = ((2 : Nat) : Int) ∧
      snap.hash = sha256hex [104, 105] :=
  save_fetch_decompress_roundtrip (idCfg 0) 5 Store.empty [47, 97] [104, 105]
    (by decide) (by decide) (fun b => rfl)
    (by set_option maxRecDepth 100000 in decide)

/-! ### C10: duplicate suppression checks only the latest snapshot -/

/-- C10 counterexample: the claim promises that saving `A`, then a
different-digest `B`, then `A` again always inserts three snapshots.
But when `A` and `B` land in the same second, the latest-hash subquery
(`ORDER BY timestamp DESC LIMIT 1`, no id tiebreak) returns the hash of
the earliest-inserted tied row — that of `A` — so the third save is
suppressed: saving `[104]`, `[105]`, `[104]` all at time 5 yields
`saved=false` on the third call and only two snapshot rows. -/
theorem dedup_same_second_third_save_suppressed :
    (saveSnapshotInTx (idCfg 0) 5 (saveSnapshotInTx (idCfg 0) 5
      (saveSnapshotInTx (idCfg 0) 5 Store.empty [47, 97] [104]).2 [47, 97] [105]).2
      [47, 97] [104]).1 = false ∧
    (saveSnapshotInTx (idCfg 0) 5 (saveSnapshotInTx (idCfg 0) 5
      (saveSnapshotInTx (idCfg 0) 5 Store.empty [47, 97] [104]).2 [47, 97] [105]).2
      [47, 97] [104]).2.snapshots.length = 2 := by
  set_option maxRecDepth 100000 in decide

/-- C10 amended: with unbounded retention, saving content `A` for a
fresh path, then content `B` with a different digest at a strictly later
timestamp, then `A` again performs three snapshot insertions: the third
save is not suppressed even though its content equals the older,
non-latest snapshot, because the hash is compared only against the
path's most recent snapshot.  The strictness matters: when `A` and `B`
land in the same second, the latest-hash query — which has no id
tiebreak — returns the hash of `A` (the earliest-inserted tied row) and
the third save is suppressed. -/
theorem dedup_compares_only_latest (cfg : DBCfg) (st : Store) (p A B : Str)
    (now1 now2 now3 : Int) (h0 : cfg.maxSnapshots = 0) (hwf : Store.WF st)
    (hfresh : st.files.find? (fun f => decide (f.path = p)) = none)
    (h12 : now1 < now2)
    (hAB : sha256hex A ≠ sha256hex B) :
    (saveSnapshotInTx cfg now1 st p A).1 = true ∧
    (saveSnapshotInTx cfg now2 (saveSnapshotInTx cfg now1 st p A).2 p B).1 = true ∧
    (saveSnapshotInTx cfg now3
      (saveSnapshotInTx cfg now2 (saveSnapshotInTx cfg now1 st p A).2 p B).2 p A).1 = true ∧
    (saveSnapshotInTx cfg now3
      (saveSnapshotInTx cfg now2 (saveSnapshotInTx cfg now1 st p A).2 p B).2 p A).2.snapshots.length
      = st.snapshots.length + 3 := by
  obtain ⟨hnodup, hsid, hfid⟩ := hwf
  have hn : ¬ 0 < cfg.maxSnapshots := by omega
  -- first save: fresh path, new file row and first snapshot
  have e1 : saveSnapshotInTx cfg now1 st p A =
      (true, ⟨st.files ++ [(⟨st.nextId, p, now1, now1⟩ : FileRec)],
        st.snapshots ++ [(⟨st.nextId + 1, st.nextId, cfg.enc A, (A.length : Int),
          sha256hex A, now1⟩ : SnapRec)],
        st.renames, st.nextId + 2⟩) := by
    simp only [saveSnapshotInTx, hfresh]
    rw [if_neg hn]
  have hfind1 : (st.files ++ [(⟨st.nextId, p, now1, now1⟩ : FileRec)]).find?
      (fun f => decide (f.path = p)) = some ⟨st.nextId, p, now1, now1⟩ := by
    rw [find?_append_of_none hfresh]
    simp [List.find?]
  have hlat1 : latestHash (st.snapshots ++ [(⟨st.nextId + 1, st.nextId, cfg.enc A,
      (A.length : Int), sha256hex A, now1⟩ : SnapRec)]) st.nextId = some (sha256hex A) :=
    latestHash_append _ _ _ rfl
      (fun t htm hfidm => absurd hfidm (by have := (hsid t htm).2; omega))
  -- second save: existing file, different digest, second snapshot
  have e2 : saveSnapshotInTx cfg now2
      (⟨st.files ++ [(⟨st.nextId, p, now1, now1⟩ : FileRec)],
        st.snapshots ++ [(⟨st.nextId + 1, st.nextId, cfg.enc A, (A.length : Int),
          sha256hex A, now1⟩ : SnapRec)],
        st.renames, st.nextId + 2⟩ : Store) p B =
      (true, ⟨(st.files ++ [(⟨st.nextId, p, now1, now1⟩ : FileRec)]).map
          (fun g : FileRec => if g.id = st.nextId then { g with updated := now2 } else g),
        (st.snapshots ++ [(⟨st.nextId + 1, st.nextId, cfg.enc A, (A.length : Int),
          sha256hex A, now1⟩ : SnapRec)]) ++
          [(⟨st.nextId + 2, st.nextId, cfg.enc B, (B.length : Int), sha256hex B,
            now2⟩ : SnapRec)],
        st.renames, st.nextId + 2 + 1⟩) := by
    simp only [saveSnapshotInTx, hfind1, hlat1, Option.some.injEq]
    rw [if_neg hAB, if_neg hn]
  have hfind2 : ((st.files ++ [(⟨st.nextId, p, now1, now1⟩ : FileRec)]).map
      (fun g => if g.id = st.nextId then { g with updated := now2 } else g)).find?
      (fun f => decide (f.path = p)) = some ⟨st.nextId, p, now1, now2⟩ := by
    have h := @find?_map_of_pred_preserved FileRec
      (fun g : FileRec => if g.id = st.nextId then { g with updated := now2 } else g)
      (fun f : FileRec => decide (f.path = p))
      (st.files ++ [⟨st.nextId, p, now1, now1⟩]) ⟨st.nextId, p, now1, now1⟩
      (fun x => by by_cases hx : x.id = st.nextId <;> simp [hx]) hfind1
    simpa using h
  have hlat2 : latestHash ((st.snapshots ++ [(⟨st.nextId + 1, st.nextId, cfg.enc A,
      (A.length : Int), sha256hex A, now1⟩ : SnapRec)]) ++
      [(⟨st.nextId + 2, st.nextId, cfg.enc B, (B.length : Int), sha256hex B,
        now2⟩ : SnapRec)]) st.nextId = some (sha256hex B) := by
    refine latestHash_append _ _ _ rfl ?_
    intro t htm hfidm
    rcases List.mem_append.mp htm with h1 | h2
    · exact absurd hfidm (by have := (hsid t h1).2; omega)
    · rw [List.mem_singleton.mp h2]
      exact h12
  -- third save: latest hash is that of B, which differs from that of A
  have e3 : saveSnapshotInTx cfg now3
      (⟨(st.files ++ [(⟨st.nextId, p, now1, now1⟩ : FileRec)]).map
          (fun g : FileRec => if g.id = st.nextId then { g with updated := now2 } else g),
        (st.snapshots ++ [(⟨st.nextId + 1, st.nextId, cfg.enc A, (A.length : Int),
          sha256hex A, now1⟩ : SnapRec)]) ++
          [(⟨st.nextId + 2, st.nextId, cfg.enc B, (B.length : Int), sha256hex B,
            now2⟩ : SnapRec)],
        st.renames, st.nextId + 2 + 1⟩ : Store) p A =
      (true, ⟨((st.files ++ [(⟨st.nextId, p, now1, now1⟩ : FileRec)]).map
          (fun g : FileRec => if g.id = st.nextId then { g with updated := now2 } else g)).map
          (fun g : FileRec => if g.id = st.nextId then { g with updated := now3 } else g),
        ((st.snapshots ++ [(⟨st.nextId + 1, st.nextId, cfg.enc A, (A.length : Int),
          sha256hex A, now1⟩ : SnapRec)]) ++
          [(⟨st.nextId + 2, st.nextId, cfg.enc B, (B.length : Int), sha256hex B,
            now2⟩ : SnapRec)]) ++
          [(⟨st.nextId + 2 + 1, st.nextId, cfg.enc A, (A.length : Int), sha256hex A,
            now3⟩ : SnapRec)],
        st.renames, st.nextId + 2 + 1 + 1⟩) := by
    simp only [saveSnapshotInTx, hfind2, hlat2, Option.some.injEq]
    rw [if_neg (Ne.symm hAB), if_neg hn]
  simp only [e1, e2, e3]
  refine ⟨trivial, trivial, trivial, ?_⟩
  simp only [List.length_append, List.length_cons, List.length_nil]

/-- C10 witness: contents `[104]` and `[105]` have distinct SHA-256
digests; saving them at times 1, 2, 3 in the pattern A, B, A into the
empty store with unbounded retention inserts three snapshot rows. -/
theorem dedup_compares_only_latest_witness :
    (saveSnapshotInTx (idCfg 0) 1 Store.empty [47, 97] [104]).1 = true ∧
    (saveSnapshotInTx (idCfg 0) 2 (saveSnapshotInTx (idCfg 0) 1 Store.empty [47, 97] [104]).2
      [47, 97] [105]).1 = true ∧
    (saveSnapshotInTx (idCfg 0) 3 (saveSnapshotInTx (idCfg 0) 2
      (saveSnapshotInTx (idCfg 0) 1 Store.empty [47, 97] [104]).2 [47, 97] [105]).2
      [47, 97] [104]).1 = true ∧
    (saveSnapshotInTx (idCfg 0) 3 (saveSnapshotInTx (idCfg 0) 2
      (saveSnapshotInTx (idCfg 0) 1 Store.empty [47, 97] [104]).2 [47, 97] [105]).2
      [47, 97] [104]).2.snapshots.length = Store.empty.snapshots.length + 3 :=
  dedup_compares_only_latest (idCfg 0) Store.empty [47, 97] [104] [105] 1 2 3 rfl
    (by decide) rfl (by decide)
    (by set_option maxRecDepth 100000 in decide)

/-! ### C7 amended: what tryMatchRename actually does -/

/-- C7 amended: scanning the pending map in iteration order, entries
visited before the first match that are older than 500 ms are discarded;
if no visited entry is fresh and trackable, nothing is dispatched and
exactly the stale entries are removed; otherwise the first visited fresh
entry whose source satisfies `should_track` — not necessarily the oldest
— is consumed and dispatched as `(old = source, new = creation path)`,
and the scan stops, leaving all later entries (stale ones included) in
the map. -/
theorem tryMatchRename_characterization (track : Str → Bool) (now : Int)
    (pending : List (Str × PendingRename)) (newPath : Str) :
    ((tryMatchRenameGo track now pending newPath).2 = none →
      (∀ e ∈ pending, staleAt now e = true ∨ track e.1 = false) ∧
      (tryMatchRenameGo track now pending newPath).1
        = pending.filter (fun e => !(staleAt now e))) ∧
    (∀ o n, (tryMatchRenameGo track now pending newPath).2 = some (o, n) →
      n = newPath ∧ ∃ l1 pr l2, pending = l1 ++ (o, pr) :: l2 ∧
        (∀ e ∈ l1, staleAt now e = true ∨ track e.1 = false) ∧
        staleAt now (o, pr) = false ∧ track o = true ∧
        (tryMatchRenameGo track now pending newPath).1
          = l1.filter (fun e => !(staleAt now e)) ++ l2) := by
  induction pending with
  | nil =>
    constructor
    · intro _
      exact ⟨by simp, rfl⟩
    · intro o n h
      simp [tryMatchRenameGo] at h
  | cons e rest ih =>
    obtain ⟨ihn, ihs⟩ := ih
    by_cases hst : renameTimeoutMs < now - e.2.timestamp
    · -- stale head: deleted, scan continues
      have hr : tryMatchRenameGo track now (e :: rest) newPath
          = tryMatchRenameGo track now rest newPath := by
        rw [tryMatchRenameGo, if_pos hst]
      have hse : staleAt now e = true := by simp [staleAt, hst]
      constructor
      · intro h2
        rw [hr] at h2
        obtain ⟨hall, heq⟩ := ihn h2
        refine ⟨?_, ?_⟩
        · intro x hx
          rcases List.mem_cons.mp hx with rfl | hx2
          · exact Or.inl hse
          · exact hall x hx2
        · rw [hr, heq, List.filter_cons, hse]
          simp
      · intro o n h2
        rw [hr] at h2
        obtain ⟨hn2, l1, pr, l2, hsplit, hall, hfresh, htrk, hrem⟩ := ihs o n h2
        refine ⟨hn2, e :: l1, pr, l2, by rw [List.cons_append, hsplit], ?_, hfresh, htrk, ?_⟩
        · intro x hx
          rcases List.mem_cons.mp hx with rfl | hx2
          · exact Or.inl hse
          · exact hall x hx2
        · rw [hr, hrem, List.filter_cons, hse]
          simp
    · have hse : staleAt now e = false := by simp [staleAt, hst]
      by_cases htr : track e.1 = true
      · -- fresh trackable head: consumed and dispatched
        have hr : tryMatchRenameGo track now (e :: rest) newPath
            = (rest, some (e.1, newPath)) := by
          rw [tryMatchRenameGo, if_neg hst, if_pos htr]
        constructor
        · intro h2
          rw [hr] at h2
          simp at h2
        · intro o n h2
          rw [hr] at h2
          have ho : e.1 = o ∧ newPath = n := by
            have := Option.some_inj.mp h2
            exact ⟨congrArg Prod.fst this, congrArg Prod.snd this⟩
          obtain ⟨ho1, ho2⟩ := ho
          subst ho1
          refine ⟨ho2.symm, [], e.2, rest, by simp, by simp, hse, htr, ?_⟩
          rw [hr]
          simp
      · -- fresh untrackable head: kept, scan continues
        have hr : tryMatchRenameGo track now (e :: rest) newPath
            = (e :: (tryMatchRenameGo track now rest newPath).1,
               (tryMatchRenameGo track now rest newPath).2) := by
          rw [tryMatchRenameGo, if_neg hst, if_neg htr]
        have htr2 : track e.1 = false := by
          cases h : track e.1
          · rfl
          · exact absurd h htr
        constructor
        · intro h2
          rw [hr] at h2
          obtain ⟨hall, heq⟩ := ihn h2
          refine ⟨?_, ?_⟩
          · intro x hx
            rcases List.mem_cons.mp hx with rfl | hx2
            · exact Or.inr htr2
            · exact hall x hx2
          · rw [hr, List.filter_cons, hse]
            simp [heq]
        · intro o n h2
          rw [hr] at h2
          obtain ⟨hn2, l1, pr, l2, hsplit, hall, hfresh, htrk, hrem⟩ := ihs o n h2
          refine ⟨hn2, e :: l1, pr, l2, by rw [List.cons_append, hsplit], ?_, hfresh, htrk, ?_⟩
          · intro x hx
            rcases List.mem_cons.mp hx with rfl | hx2
            · exact Or.inr htr2
            · exact hall x hx2
          · rw [hr, List.filter_cons, hse]
            simp [hrem]

/-- C7 amended witness: on a map holding one 1000 ms old entry, nothing
is dispatched and the stale entry is removed. -/
theorem tryMatchRename_characterization_witness :
    (∀ e ∈ c7StaleOnly, staleAt 1000 e = true ∨ (fun _ : Str => true) e.1 = false) ∧
    (tryMatchRenameGo (fun _ => true) 1000 c7StaleOnly [110]).1
      = c7StaleOnly.filter (fun e => !(staleAt 1000 e)) :=
  (tryMatchRename_characterization (fun _ => true) 1000 c7StaleOnly [110]).1 (by decide)

/-! ### C3 amended: longest boundary-aware root selection -/

theorem normalizeDir_pos (d : Str) : 0 < (normalizeDir d).length := by
  unfold normalizeDir
  by_cases h : d.getLast? = some sepByte
  · rw [if_pos h]
    cases d with
    | nil => simp at h
    | cons a t => simp
  · rw [if_neg h]
    simp

theorem mkRuntime_dirs_pos (c : WatchSetCfg) : ∀ dir ∈ (mkRuntime c).dirs, 0 < dir.length := by
  intro dir hd
  simp only [mkRuntime] at hd
  rcases List.mem_map.mp hd with ⟨d, _, rfl⟩
  exact normalizeDir_pos d

theorem scanDirs_spec (ws : WatchSetRuntime) (p : Str) :
    ∀ (ds : List Str) (b : Option (WatchSetRuntime × Nat)),
    bLen b ≤ bLen (scanDirs ws p ds b) ∧
    (∀ dir ∈ ds, coversB dir p = true → dir.length ≤ bLen (scanDirs ws p ds b)) ∧
    (scanDirs ws p ds b = b ∨ ∃ dir ∈ ds, coversB dir p = true ∧
      scanDirs ws p ds b = some (ws, dir.length)) := by
  intro ds
  induction ds with
  | nil => intro b; exact ⟨le_refl _, by simp, Or.inl rfl⟩
  | cons dir rest ih =>
    intro b
    have hbl : (match b with | none => 0 | some q => q.2) = bLen b := by cases b <;> rfl
    by_cases h1 : dir.isPrefixOf p = true ∧ bLen b < dir.length
    · have hcov : coversB dir p = true := by simp [coversB, h1.1]
      have hr : scanDirs ws p (dir :: rest) b = scanDirs ws p rest (some (ws, dir.length)) := by
        simp only [scanDirs]
        rw [hbl, if_pos h1]
      obtain ⟨ih1, ih2, ih3⟩ := ih (some (ws, dir.length))
      have ihl : dir.length ≤ bLen (scanDirs ws p rest (some (ws, dir.length))) := ih1
      refine ⟨?_, ?_, ?_⟩
      · rw [hr]
        exact le_trans (le_of_lt h1.2) ihl
      · intro d hd hcv
        rcases List.mem_cons.mp hd with rfl | hd2
        · rw [hr]; exact ihl
        · rw [hr]; exact ih2 d hd2 hcv
      · rw [hr]
        rcases ih3 with heq | ⟨d, hd, hcv, heq⟩
        · exact Or.inr ⟨dir, List.mem_cons_self dir rest, hcov, heq⟩
        · exact Or.inr ⟨d, List.mem_cons_of_mem dir hd, hcv, heq⟩
    · by_cases h2 : p ++ [sepByte] = dir ∧ bLen b < dir.length
      · have hcov : coversB dir p = true := by
          simp [coversB, h2.1]
        have hr : scanDirs ws p (dir :: rest) b = scanDirs ws p rest (some (ws, dir.length)) := by
          simp only [scanDirs]
          rw [hbl, if_neg h1, if_pos h2]
        obtain ⟨ih1, ih2, ih3⟩ := ih (some (ws, dir.length))
        have ihl : dir.length ≤ bLen (scanDirs ws p rest (some (ws, dir.length))) := ih1
        refine ⟨?_, ?_, ?_⟩
        · rw [hr]
          exact le_trans (le_of_lt h2.2) ihl
        · intro d hd hcv
          rcases List.mem_cons.mp hd with rfl | hd2
          · rw [hr]; exact ihl
          · rw [hr]; exact ih2 d hd2 hcv
        · rw [hr]
          rcases ih3 with heq | ⟨d, hd, hcv, heq⟩
          · exact Or.inr ⟨dir, List.mem_cons_self dir rest, hcov, heq⟩
          · exact Or.inr ⟨d, List.mem_cons_of_mem dir hd, hcv, heq⟩
      · have hr : scanDirs ws p (dir :: rest) b = scanDirs ws p rest b := by
          simp only [scanDirs]
          rw [hbl, if_neg h1, if_neg h2]
        obtain ⟨ih1, ih2, ih3⟩ := ih b
        refine ⟨?_, ?_, ?_⟩
        · rw [hr]; exact ih1
        · intro d hd hcv
          rcases List.mem_cons.mp hd with rfl | hd2
          · rw [hr]
            have hle : d.length ≤ bLen b := by
              cases hpre : d.isPrefixOf p with
              | true =>
                by_contra hlt
                exact h1 ⟨hpre, by omega⟩
              | false =>
                have hbeq : (p ++ [sepByte] == d) = true := by
                  simpa [coversB, hpre] using hcv
                by_contra hlt
                exact h2 ⟨beq_iff_eq.mp hbeq, by omega⟩
            exact le_trans hle ih1
          · rw [hr]; exact ih2 d hd2 hcv
        · rw [hr]
          rcases ih3 with heq | ⟨d, hd, hcv, heq⟩
          · exact Or.inl heq
          · exact Or.inr ⟨d, List.mem_cons_of_mem dir hd, hcv, heq⟩

theorem scanDirs_none_of (ws : WatchSetRuntime) (p : Str) (ds : List Str)
    (b : Option (WatchSetRuntime × Nat)) (h : ∀ dir ∈ ds, coversB dir p = false) :
    scanDirs ws p ds b = b := by
  induction ds with
  | nil => rfl
  | cons dir rest ih =>
    have hc := h dir (List.mem_cons_self dir rest)
    obtain ⟨hpre, hbeq⟩ := Bool.or_eq_false_iff.mp hc
    simp only [scanDirs]
    rw [if_neg (by simp [hpre]), if_neg ?_]
    · exact ih (fun d hd => h d (List.mem_cons_of_mem dir hd))
    · rintro ⟨heq2, _⟩
      rw [← heq2] at hbeq
      simp at hbeq

theorem scanSets_spec (p : Str) :
    ∀ (sets : List WatchSetRuntime) (b : Option (WatchSetRuntime × Nat)),
    bLen b ≤ bLen (scanSets p sets b) ∧
    (∀ ws ∈ sets, ∀ dir ∈ ws.dirs, coversB dir p = true → dir.length ≤ bLen (scanSets p sets b)) ∧
    (scanSets p sets b = b ∨ ∃ ws ∈ sets, ∃ dir ∈ ws.dirs, coversB dir p = true ∧
      scanSets p sets b = some (ws, dir.length)) := by
  intro sets
  induction sets with
  | nil => intro b; exact ⟨le_refl _, by simp, Or.inl rfl⟩
  | cons ws rest ih =>
    intro b
    have hr : scanSets p (ws :: rest) b = scanSets p rest (scanDirs ws p ws.dirs b) := rfl
    obtain ⟨d1, d2, d3⟩ := scanDirs_spec ws p ws.dirs b
    obtain ⟨i1, i2, i3⟩ := ih (scanDirs ws p ws.dirs b)
    refine ⟨?_, ?_, ?_⟩
    · rw [hr]
      exact le_trans d1 i1
    · intro w hw dir hd hcv
      rcases List.mem_cons.mp hw with rfl | hw2
      · rw [hr]; exact le_trans (d2 dir hd hcv) i1
      · rw [hr]; exact i2 w hw2 dir hd hcv
    · rw [hr]
      rcases i3 with heq | ⟨w, hw, dir, hd, hcv, heq⟩
      · rw [heq]
        rcases d3 with heq2 | ⟨dir, hd, hcv, heq2⟩
        · exact Or.inl heq2
        · exact Or.inr ⟨ws, List.mem_cons_self ws rest, dir, hd, hcv, heq2⟩
      · exact Or.inr ⟨w, List.mem_cons_of_mem ws hw, dir, hd, hcv, heq⟩

theorem scanSets_none_of (p : Str) (sets : List WatchSetRuntime)
    (b : Option (WatchSetRuntime × Nat))
    (h : ∀ ws ∈ sets, ∀ dir ∈ ws.dirs, coversB dir p = false) :
    scanSets p sets b = b := by
  induction sets generalizing b with
  | nil => rfl
  | cons ws rest ih =>
    show scanSets p rest (scanDirs ws p ws.dirs b) = b
    rw [scanDirs_none_of ws p ws.dirs b (h ws (List.mem_cons_self ws rest))]
    exact ih b (fun w hw => h w (List.mem_cons_of_mem ws hw))

/-- C3 amended: `findWatchSet` returns none exactly when no normalized
root covers the path — where a root covers P iff the normalized root
(with trailing separator) is a string prefix of P, or P equals the root
without the separator — and any returned group owns a covering root of
maximal length among all groups' covering roots. -/
theorem findWatchSet_longest_cover (cfgs : List WatchSetCfg) (p : Str) :
    (findWatchSet (cfgs.map mkRuntime) p = none ↔
      ∀ ws ∈ cfgs.map mkRuntime, ∀ dir ∈ ws.dirs, coversB dir p = false) ∧
    (∀ ws, findWatchSet (cfgs.map mkRuntime) p = some ws →
      ws ∈ cfgs.map mkRuntime ∧ ∃ dir ∈ ws.dirs, coversB dir p = true ∧
        ∀ ws2 ∈ cfgs.map mkRuntime, ∀ dir2 ∈ ws2.dirs, coversB dir2 p = true →
          dir2.length ≤ dir.length) := by
  obtain ⟨s1, s2, s3⟩ := scanSets_spec p (cfgs.map mkRuntime) none
  constructor
  · constructor
    · intro hr ws hws dir hd
      have hnone : scanSets p (cfgs.map mkRuntime) none = none := by
        unfold findWatchSet at hr
        exact Option.map_eq_none'.mp hr
      cases hcv : coversB dir p with
      | false => rfl
      | true =>
        exfalso
        have hlen := s2 ws hws dir hd hcv
        rw [hnone] at hlen
        simp only [bLen] at hlen
        have hpos : 0 < dir.length := by
          rcases List.mem_map.mp hws with ⟨c, _, rfl⟩
          exact mkRuntime_dirs_pos c dir hd
        omega
    · intro hall
      unfold findWatchSet
      rw [scanSets_none_of p (cfgs.map mkRuntime) none hall]
      rfl
  · intro ws hr
    unfold findWatchSet at hr
    rcases Option.map_eq_some'.mp hr with ⟨q, hq, hq1⟩
    rcases s3 with heq | ⟨w, hw, dir, hd, hcv, heq⟩
    · rw [heq] at hq
      simp at hq
    · rw [heq] at hq
      obtain rfl := Option.some_inj.mp hq
      have hws : w = ws := hq1
      subst hws
      refine ⟨hw, dir, hd, hcv, ?_⟩
      intro ws2 hws2 dir2 hd2 hcv2
      have hle := s2 ws2 hws2 dir2 hd2 hcv2
      rw [heq] at hle
      simpa [bLen] using hle

/-- C3 amended witness: with the single group rooted at `/a`, the path
`/a/b` is owned by that group via its covering normalized root `/a/`. -/
theorem findWatchSet_longest_cover_witness :
    mkRuntime c3Cfg ∈ [c3Cfg].map mkRuntime ∧
    ∃ dir ∈ (mkRuntime c3Cfg).dirs, coversB dir [47, 97, 47, 98] = true ∧
      ∀ ws2 ∈ [c3Cfg].map mkRuntime, ∀ dir2 ∈ ws2.dirs,
        coversB dir2 [47, 97, 47, 98] = true → dir2.length ≤ dir.length :=
  (findWatchSet_longest_cover [c3Cfg] [47, 97, 47, 98]).2 (mkRuntime c3Cfg) (by decide)

/-! ### C2 amended: what GetRecentSnapshots actually returns -/

/-- C2 amended: `GetRecentSnapshots` returns min(limit, number of
snapshots with an existing file row) rows — never `limit+1` — ordered by
timestamp descending with snapshot id descending as tiebreak, and every
returned row arises from a snapshot joined with its file; rename rows
never appear. -/
theorem getRecentSnapshots_props (st : Store) (limit : Nat) :
    (GetRecentSnapshots st limit).length
      = min limit (st.snapshots.countP
          (fun s => (st.files.find? (fun f => decide (f.id = s.fileId))).isSome)) ∧
    (GetRecentSnapshots st limit).Pairwise (fun a b => entryGE a b = true) ∧
    (∀ e ∈ GetRecentSnapshots st limit, ∃ s ∈ st.snapshots, ∃ f,
      st.files.find? (fun g => decide (g.id = s.fileId)) = some f ∧ e = entryOf s f) := by
  refine ⟨?_, ?_, ?_⟩
  · unfold GetRecentSnapshots
    rw [List.length_take, length_filterMap_eq_countP]
    congr 1
    have h1 : ∀ s : SnapRec,
        ((st.files.find? (fun f => decide (f.id = s.fileId))).map (entryOf s)).isSome
          = (st.files.find? (fun f => decide (f.id = s.fileId))).isSome := by
      intro s
      cases st.files.find? (fun f => decide (f.id = s.fileId)) <;> rfl
    calc (sortSnapsDesc st.snapshots).countP
          (fun s => ((st.files.find? (fun f => decide (f.id = s.fileId))).map
            (entryOf s)).isSome)
        = (sortSnapsDesc st.snapshots).countP
          (fun s => (st.files.find? (fun f => decide (f.id = s.fileId))).isSome) :=
          List.countP_congr (fun s _ => by rw [h1 s])
      _ = st.snapshots.countP
          (fun s => (st.files.find? (fun f => decide (f.id = s.fileId))).isSome) :=
          (sortSnapsDesc_perm st.snapshots).countP_eq _
  · unfold GetRecentSnapshots
    apply List.Pairwise.sublist (List.take_sublist _ _)
    apply pairwise_filterMap_transfer _ ?_ (sortSnapsDesc_pairwise st.snapshots)
    intro a b x y hab hfa hfb
    rcases Option.map_eq_some'.mp hfa with ⟨fa, hfa2, rfl⟩
    rcases Option.map_eq_some'.mp hfb with ⟨fb, hfb2, rfl⟩
    simp only [entryGE, entryOf, snapGE, decide_eq_true_eq] at hab ⊢
    exact hab
  · intro e he
    unfold GetRecentSnapshots at he
    have he2 := (List.take_sublist _ _).subset he
    rcases List.mem_filterMap.mp he2 with ⟨s, hs, hmap⟩
    rcases Option.map_eq_some'.mp hmap with ⟨f, hf, rfl⟩
    exact ⟨s, (sortSnapsDesc_perm st.snapshots).mem_iff.mp hs, f, hf, rfl⟩

/-- C2 amended witness: on the store with three snapshots and one
rename, the limit-2 query returns exactly min(2, 3) = 2 rows in sorted
order. -/
theorem getRecentSnapshots_props_witness :
    (GetRecentSnapshots c2Store 2).length
      = min 2 (c2Store.snapshots.countP
          (fun s => (c2Store.files.find? (fun f => decide (f.id = s.fileId))).isSome)) ∧
    (GetRecentSnapshots c2Store 2).Pairwise (fun a b => entryGE a b = true) :=
  ⟨(getRecentSnapshots_props c2Store 2).1, (getRecentSnapshots_props c2Store 2).2.1⟩

end LocalTextHistory
